import Mathlib

/-!
Verification of the merde CLI's object-selection and transfer-protocol core.

The Go source is shallowly embedded: pure string manipulation is re-implemented
over `List Char` (so everything reduces in the kernel), each external `git`
invocation is a field of a `GitOracle` record (the `xc` process library splits
command output on a separator before the repository code sees it, so oracle
results are already-split line lists where the source calls `Split`), and
fallible operations return `Except String`.
-/

namespace Merde

deriving instance DecidableEq for Except

/-- Splits a character list at every occurrence of `c`; mirrors Go
`strings.Split` (so the empty input yields one empty field). -/
def splitCharsAux (c : Char) : List Char → List Char → List (List Char)
  | [], acc => [acc.reverse]
  | x :: xs, acc =>
    if x = c then acc.reverse :: splitCharsAux c xs []
    else splitCharsAux c xs (x :: acc)

/-- Go `strings.Split(s, string(c))` for a one-character separator. -/
def splitOnCharStr (c : Char) (s : String) : List String :=
  (splitCharsAux c s.data []).map String.mk

/-- Go `len(s)` for the ASCII strings handled here (byte length). -/
def lengthGo (s : String) : Nat := s.data.length

/-- Joins strings with a single-space separator, as `strings.SplitN`'s
remainder field would contain. -/
def joinSpace : List String → String
  | [] => ""
  | x :: xs => xs.foldl (fun acc y => acc ++ " " ++ y) x

/-- Go `strings.SplitN(s, " ", 3)`: at most three fields, the third keeping
any further spaces. -/
def splitN3 (s : String) : List String :=
  match splitOnCharStr ' ' s with
  | a :: b :: c :: rest => [a, b, joinSpace (c :: rest)]
  | parts => parts

/-- One record of `git ls-tree -r -t` output, as parsed by `varyingPaths`
in src/main.go. -/
structure TreeLine where
  typ : String
  sha : String
  path : String
deriving DecidableEq

/-- The per-path record `contents` kept by `varyingPaths` (src/main.go:540). -/
structure Contents where
  typ : String
  sha : String
  varies : Bool
deriving DecidableEq

/-- The `pathContents` map; Go map reads of absent keys yield the zero value,
modelled by a total function defaulting to `emptyContents`. -/
abbrev PathMap := String → Contents

def emptyContents : Contents := ⟨"", "", false⟩

def emptyPM : PathMap := fun _ => emptyContents

def updatePM (m : PathMap) (p : String) (c : Contents) : PathMap :=
  fun q => if q = p then c else m q

/-- The error `varyingPaths` raises on a submodule divergence
(src/main.go:591). -/
def subMsg : String := "changes involving submodules are not supported"

/-- Parses and validates one non-empty `ls-tree` line exactly as the body of
the inner loop of `varyingPaths` does (src/main.go:560-575). -/
def parseLine (line : String) : Except String TreeLine :=
  match splitN3 line with
  | [typ, sha, path] =>
    if typ = "blob" ∨ typ = "tree" ∨ typ = "commit" then
      if path = "" then Except.error "unexpected empty path"
      else if lengthGo sha ≠ 40 then
        Except.error ("unexpected sha length: " ++ toString (lengthGo sha))
      else Except.ok ⟨typ, sha, path⟩
    else Except.error ("unexpected object type: " ++ typ)
  | _ => Except.error ("unexpected line: " ++ line)

/-- Processes one line of one tree's listing: the body of the inner loop of
`varyingPaths` (src/main.go:556-599), threading the `pathContents` map and the
`varying` accumulator. -/
def processLine (m : PathMap) (v : List String) (line : String) :
    Except String (PathMap × List String) :=
  if line = "" then Except.ok (m, v)
  else
    match parseLine line with
    | Except.error e => Except.error e
    | Except.ok t =>
      let c := m t.path
      if c.typ = "" then Except.ok (updatePM m t.path ⟨t.typ, t.sha, false⟩, v)
      else if c.varies then Except.ok (m, v ++ [t.sha])
      else if c.typ ≠ t.typ ∨ c.sha ≠ t.sha then
        if c.typ = "commit" ∨ t.typ = "commit" then Except.error subMsg
        else Except.ok (updatePM m t.path ⟨c.typ, c.sha, true⟩, v ++ [c.sha, t.sha])
      else Except.ok (m, v)

/-- Folds `processLine` over a list of lines, aborting at the first error. -/
def processLines : List String → PathMap → List String →
    Except String (PathMap × List String)
  | [], m, v => Except.ok (m, v)
  | l :: ls, m, v =>
    match processLine m v l with
    | Except.error e => Except.error e
    | Except.ok (m', v') => processLines ls m' v'

/-- The outer loop of `varyingPaths` over the per-tree listings. -/
def varyingPathsAux : List (List String) → PathMap → List String →
    Except String (List String)
  | [], _, v => Except.ok v
  | ls :: rest, m, v =>
    match processLines ls m v with
    | Except.error e => Except.error e
    | Except.ok (m', v') => varyingPathsAux rest m' v'

/-- The function `varyingPaths` applied directly to the flattened listings of the trees
(one line list per tree, in tree order). -/
def varyingPathsListings (listings : List (List String)) :
    Except String (List String) :=
  varyingPathsAux listings emptyPM []

/-- External git invocations used by the core (src/main.go `Git` methods).
The `xc` layer splits raw command output before the repository code reads it,
so list-valued queries return already-split lines. -/
structure GitOracle where
  mergeBases : List String → Except String (List String)
  revList : List String → String → Except String (List String)
  catFileBatch : String → Except String (List String)
  lsTree : String → Except String (List String)
  packObjects : String → Except String String

/-- The per-tree loop of `varyingPaths` (src/main.go:547-600): query
`ls-tree` for each tree in order and process its listing. -/
def varyingPathsGoAux (o : GitOracle) : List String → PathMap → List String →
    Except String (List String)
  | [], _, v => Except.ok v
  | t :: ts, m, v =>
    match o.lsTree t with
    | Except.error e => Except.error e
    | Except.ok lines =>
      match processLines lines m v with
      | Except.error e => Except.error e
      | Except.ok (m', v') => varyingPathsGoAux o ts m' v'

/-- Embeds `varyingPaths` (src/main.go:539-602): the objects with differing contents
at the same path across the given trees. -/
def varyingPaths (o : GitOracle) (trees : List String) :
    Except String (List String) :=
  varyingPathsGoAux o trees emptyPM []

/-- Embeds `UniqueAncestorMergeBase` (src/main.go:436-450). The Go loop is unbounded
(`for {}`); the embedding takes explicit fuel, `none` meaning the loop has not
finished within that many iterations. The empty result is the `""` sentinel,
as in the source. -/
def uniqueAncestorMergeBase (o : GitOracle) : Nat → List String →
    Option (Except String String)
  | 0, _ => none
  | fuel + 1, commits =>
    match o.mergeBases commits with
    | Except.error e => some (Except.error e)
    | Except.ok [] => some (Except.ok "")
    | Except.ok [b] => some (Except.ok b)
    | Except.ok bases => uniqueAncestorMergeBase o fuel bases

/-- Embeds `commitsBetween` (src/main.go:508-522): `rev-list tips --not base`, then
append `base` itself. -/
def commitsBetween (o : GitOracle) (base : String) (tips : List String) :
    Except String (List String) :=
  match o.revList tips base with
  | Except.error e => Except.error e
  | Except.ok commits => Except.ok (commits ++ [base])

/-- The batched `cat-file` stdin built by `treesReferenced`
(src/main.go:525-528): one `<commit>^\x7btree\x7d` query per line. -/
def batchInput (commits : List String) : String :=
  String.join (commits.map (fun c => c ++ "^\x7btree\x7d\n"))

/-- Embeds `treesReferenced` (src/main.go:524-536): one batched query resolving each
commit to its tree. -/
def treesReferenced (o : GitOracle) (commits : List String) :
    Except String (List String) :=
  o.catFileBatch (batchInput commits)

/-- The stdin `packObjects` feeds to `git pack-objects`
(src/main.go:605-609): one object id per line. -/
def packInput (objects : List String) : String :=
  String.join (objects.map (fun obj => obj ++ "\n"))

/-- Embeds `packObjects` (src/main.go:604-616). -/
def packObjects (o : GitOracle) (objects : List String) : Except String String :=
  o.packObjects (packInput objects)

/-- The object-selection pipeline of `MergePack` (src/main.go:618-648) up to
and including the `need` list it hands to `packObjects`:
`need = commits ++ trees ++ varying`, each stage aborting on error exactly as
the source's early returns do. -/
def mergePackNeed (o : GitOracle) (fuel : Nat) (main topic : String) :
    Option (Except String (List String)) :=
  match uniqueAncestorMergeBase o fuel [main, topic] with
  | none => none
  | some (Except.error e) => some (Except.error e)
  | some (Except.ok base) =>
    match commitsBetween o base [main, topic] with
    | Except.error e => some (Except.error e)
    | Except.ok commits =>
      match treesReferenced o commits with
      | Except.error e => some (Except.error e)
      | Except.ok trees =>
        match varyingPaths o trees with
        | Except.error e => some (Except.error e)
        | Except.ok varying => some (Except.ok (commits ++ trees ++ varying))

/-- Embeds `MergePack` (src/main.go:618-648) in full: the `need` list packed. -/
def mergePack (o : GitOracle) (fuel : Nat) (main topic : String) :
    Option (Except String String) :=
  match mergePackNeed o fuel main topic with
  | none => none
  | some (Except.error e) => some (Except.error e)
  | some (Except.ok need) => some (packObjects o need)

/-- Modelled from the spec: the commit graph held by the external toolchain,
which is not part of this repository. `nodes` lists every commit id,
`parentsOf` its parents (glossary: a commit has zero or more parents). -/
structure RepoGraph where
  nodes : List String
  parentsOf : String → List String

/-- Ancestor closure of `a`, saturated by `n` parent-expansion rounds. -/
def reachSet (g : RepoGraph) : Nat → String → List String
  | 0, a => [a]
  | n + 1, a =>
    let s := reachSet g n a
    (s ++ s.flatMap g.parentsOf).dedup

/-- Modelled from the spec: "reachable from", i.e. equal to or an ancestor of
`a`; `g.nodes.length` rounds saturate any chain inside the graph. -/
def reachb (g : RepoGraph) (a b : String) : Bool :=
  (reachSet g g.nodes.length a).contains b

/-- Modelled from the spec: `git rev-list tips --not base` — the commits
reachable from some tip but not reachable from base (spec section 4.2 and the
external-interface list in section 6). The toolchain is external to this
repository, so its query is taken at its specified meaning. -/
def revListModel (g : RepoGraph) (tips : List String) (base : String) :
    List String :=
  g.nodes.filter (fun c => (tips.any (fun t => reachb g t c)) && !(reachb g base c))

/-- A `GitOracle` whose `rev-list` query answers from the graph model; the
other queries are unused by `commitsBetween`. -/
def oracleOfGraph (g : RepoGraph) : GitOracle where
  mergeBases := fun _ => Except.ok []
  revList := fun tips base => Except.ok (revListModel g tips base)
  catFileBatch := fun _ => Except.ok []
  lsTree := fun _ => Except.ok []
  packObjects := fun _ => Except.ok ""

/-- The function `commitsBetween` run against the modelled toolchain. -/
def commitsBetweenModel (g : RepoGraph) (base : String) (tips : List String) :
    Except String (List String) :=
  commitsBetween (oracleOfGraph g) base tips

/-- Expected protocol versions (src/http.go:27-28). -/
def apiRequestVersion : String := "1"

def apiResponseVersion : String := "1"

/-- The `Response` union (src/http.go:78-93); the binary buffer is a byte
string. Zero values mirror Go's. -/
structure Response where
  isJSON : Bool
  stdout : String
  stderr : String
  exitCode : Int
  ref : String
  sha : String
  data : String
deriving DecidableEq

/-- A binary response wrapping one octet-stream part's payload
(src/http.go:183). -/
def mkBinary (payload : String) : Response :=
  ⟨false, "", "", 0, "", "", payload⟩

/-- One decoded MIME part of the multipart response body: its own
Content-Type header and its raw payload. -/
structure RespPart where
  contentType : String
  body : String
deriving DecidableEq

/-- An HTTP response as `doRequest` observes it: status code, the
Merde-Server-API-Version header, the Content-Type header, the parsed
multipart parts, and the raw body (used in the non-200 diagnostic). -/
structure ServerResponse where
  statusCode : Nat
  serverVersion : String
  contentType : String
  parts : List RespPart
  rawBody : String
deriving DecidableEq

/-- Leading-segment test on character lists. -/
def listIsLeading : List Char → List Char → Bool
  | [], _ => true
  | _ :: _, [] => false
  | x :: xs, y :: ys => x = y && listIsLeading xs ys

/-- Whether `pre` starts the string `s`. -/
def strIsLeading (pre s : String) : Bool :=
  listIsLeading pre.data s.data

/-- Characters Go `mime.ParseMediaType` and `strings.TrimSpace` treat as
blanks around tokens. -/
def isSpaceGo (c : Char) : Bool :=
  c = ' ' || c = '\t' || c = '\n' || c = '\r'

/-- Trims blanks from both ends, as Go `strings.TrimSpace`. -/
def trimSpaceGo (s : String) : String :=
  ⟨((s.data.dropWhile isSpaceGo).reverse.dropWhile isSpaceGo).reverse⟩

/-- The media type of a Content-Type header value: the token before any `;`
parameter, trimmed and lowercased, as `mime.ParseMediaType` yields it. -/
def mediaTypeOf (ct : String) : String :=
  trimSpaceGo ⟨(ct.data.takeWhile (fun c => c ≠ ';')).map Char.toLower⟩

/-- The protocol-version mismatch diagnostic (src/http.go:138). -/
def versionErrMsg (v : String) : String :=
  "unexpected response version \"" ++ v ++ "\", please update this client"

/-- The multipart loop of `doRequest` (src/http.go:155-192): each part is
dispatched on the exact value of its Content-Type header; JSON parts are
decoded by `decode` (the external `encoding/json` decoder) and marked
`isJSON`; octet-stream parts are buffered whole; anything else is a fatal
decode error that ends the stream. -/
def partsLoop (decode : String → Except String Response) :
    List RespPart → List (Except String Response)
  | [] => []
  | p :: ps =>
    if p.contentType = "application/json" then
      match decode p.body with
      | Except.error e => [Except.error e]
      | Except.ok r => Except.ok { r with isJSON := true } :: partsLoop decode ps
    else if p.contentType = "application/octet-stream" then
      Except.ok (mkBinary p.body) :: partsLoop decode ps
    else
      [Except.error ("unexpected multipart content type: " ++ p.contentType)]

/-- Embeds `doRequest` (src/http.go:118-194) after the network round trip, as the
sequence of items the iterator yields to a caller that keeps pulling: the
status gate, then the protocol-version gate, then the content-type gate, then
the part loop. -/
def doRequestModel (decode : String → Except String Response)
    (resp : ServerResponse) : List (Except String Response) :=
  if resp.statusCode ≠ 200 then
    [Except.error ("unexpected status code " ++ toString resp.statusCode ++
      ": " ++ resp.rawBody)]
  else if resp.serverVersion ≠ apiResponseVersion then
    [Except.error (versionErrMsg resp.serverVersion)]
  else if !(strIsLeading "multipart/" (mediaTypeOf resp.contentType)) then
    [Except.error ("unexpected content type: " ++ mediaTypeOf resp.contentType)]
  else
    partsLoop decode resp.parts

/-! ### Specification predicates for `varyingPaths`

`entryAt ls p t s` says a line of the combined listings `ls` parses to the
triple `(t, s, p)`; all order-insensitive facts about `varyingPaths` are
phrased through it. -/

def entryAt (ls : List String) (p t s : String) : Prop :=
  ∃ l, l ∈ ls ∧ parseLine l = Except.ok ⟨t, s, p⟩

def shaAt (ls : List String) (p s : String) : Prop :=
  ∃ t, entryAt ls p t s

/-- Path `p` carries at least two distinct `(kind, id)` pairs in `ls`. -/
def TwoDistinct (ls : List String) (p : String) : Prop :=
  ∃ t1 s1 t2 s2, entryAt ls p t1 s1 ∧ entryAt ls p t2 s2 ∧ (t1 ≠ t2 ∨ s1 ≠ s2)

/-- Invariant tying the `pathContents` map and the `varying` accumulator to
the lines processed so far. -/
structure Inv (ls : List String) (m : PathMap) (v : List String) : Prop where
  unseen : ∀ p t s, (m p).typ = "" → ¬ entryAt ls p t s
  base_mem : ∀ p, (m p).typ ≠ "" → entryAt ls p (m p).typ (m p).sha
  uniform : ∀ p t s, (m p).varies = false → entryAt ls p t s →
    t = (m p).typ ∧ s = (m p).sha
  varies_two : ∀ p, (m p).varies = true → TwoDistinct ls p
  mem_v : ∀ s, s ∈ v → ∃ p, shaAt ls p s ∧ (m p).varies = true
  v_complete : ∀ p t s, (m p).varies = true → entryAt ls p t s → s ∈ v

theorem entryAt_nil {p t s : String} : ¬ entryAt [] p t s := by
  rintro ⟨l, hl, -⟩
  exact (List.not_mem_nil l) hl

theorem entryAt_snoc {ls : List String} {l p t s : String} :
    entryAt (ls ++ [l]) p t s ↔
      entryAt ls p t s ∨ parseLine l = Except.ok ⟨t, s, p⟩ := by
  constructor
  · rintro ⟨x, hx, hok⟩
    rcases List.mem_append.mp hx with hx' | hx'
    · exact Or.inl ⟨x, hx', hok⟩
    · rcases List.mem_singleton.mp hx' with rfl
      exact Or.inr hok
  · rintro (⟨x, hx, hok⟩ | hok)
    · exact ⟨x, List.mem_append.mpr (Or.inl hx), hok⟩
    · exact ⟨l, List.mem_append.mpr (Or.inr (List.mem_singleton_self l)), hok⟩

theorem entryAt_mono {ls : List String} {l p t s : String}
    (h : entryAt ls p t s) : entryAt (ls ++ [l]) p t s :=
  entryAt_snoc.mpr (Or.inl h)

theorem TwoDistinct_mono {ls : List String} {l p : String}
    (h : TwoDistinct ls p) : TwoDistinct (ls ++ [l]) p := by
  obtain ⟨t1, s1, t2, s2, h1, h2, hne⟩ := h
  exact ⟨t1, s1, t2, s2, entryAt_mono h1, entryAt_mono h2, hne⟩

theorem parseLine_ok_facts {l : String} {e : TreeLine}
    (h : parseLine l = Except.ok e) :
    (e.typ = "blob" ∨ e.typ = "tree" ∨ e.typ = "commit") ∧ e.path ≠ "" := by
  unfold parseLine at h
  split at h
  · split_ifs at h with h1 h2 h3
    all_goals cases h
    exact ⟨h1, h2⟩
  · cases h

theorem parseLine_ok_typ_ne {l : String} {e : TreeLine}
    (h : parseLine l = Except.ok e) : e.typ ≠ "" := by
  rcases (parseLine_ok_facts h).1 with h' | h' | h' <;> rw [h'] <;> decide

theorem parseLine_empty : parseLine "" = Except.error "unexpected line: " := rfl

theorem parseLine_ok_ne_empty {l : String} {e : TreeLine}
    (h : parseLine l = Except.ok e) : l ≠ "" := by
  intro hl
  rw [hl, parseLine_empty] at h
  cases h

/-- Transport of `Inv` along a pointwise equivalence of `entryAt`. -/
theorem Inv_congr {ls ls' : List String} {m : PathMap} {v : List String}
    (he : ∀ p t s, entryAt ls p t s ↔ entryAt ls' p t s)
    (inv : Inv ls m v) : Inv ls' m v := by
  constructor
  · intro p t s h0 hent
    exact inv.unseen p t s h0 ((he p t s).mpr hent)
  · intro p h0
    exact (he p _ _).mp (inv.base_mem p h0)
  · intro p t s h0 hent
    exact inv.uniform p t s h0 ((he p t s).mpr hent)
  · intro p h0
    obtain ⟨t1, s1, t2, s2, h1, h2, hne⟩ := inv.varies_two p h0
    exact ⟨t1, s1, t2, s2, (he p t1 s1).mp h1, (he p t2 s2).mp h2, hne⟩
  · intro s hs
    obtain ⟨p, ⟨t, hent⟩, hv⟩ := inv.mem_v s hs
    exact ⟨p, ⟨t, (he p t s).mp hent⟩, hv⟩
  · intro p t s h0 hent
    exact inv.v_complete p t s h0 ((he p t s).mpr hent)

theorem Inv_nil : Inv [] emptyPM [] := by
  constructor
  · intro p t s _ hent
    exact entryAt_nil hent
  · intro p hp
    exact absurd rfl hp
  · intro p t s _ hent
    exact absurd hent entryAt_nil
  · intro p h
    cases h
  · intro s hs
    exact absurd hs (List.not_mem_nil s)
  · intro p t s h
    cases h

theorem updatePM_same (m : PathMap) (p : String) (c : Contents) :
    updatePM m p c p = c := by
  simp [updatePM]

theorem updatePM_other (m : PathMap) (p : String) (c : Contents) {q : String}
    (h : q ≠ p) : updatePM m p c q = m q := by
  simp [updatePM, h]

/-- Processing one line preserves the invariant, the processed prefix growing
by that line. -/
theorem processLine_inv {ls : List String} {m : PathMap} {v : List String}
    {l : String} {m' : PathMap} {v' : List String}
    (inv : Inv ls m v) (h : processLine m v l = Except.ok (m', v')) :
    Inv (ls ++ [l]) m' v' := by
  by_cases hl : l = ""
  · subst hl
    rw [show processLine m v "" = Except.ok (m, v) from rfl] at h
    injection h with h'
    injection h' with hm hv
    subst hm
    subst hv
    refine Inv_congr (fun p t s => ?_) inv
    rw [entryAt_snoc, parseLine_empty]
    simp
  · rcases hp : parseLine l with e | t
    · simp only [processLine, if_neg hl, hp] at h
      cases h
    · simp only [processLine, if_neg hl, hp] at h
      have hparse : ∀ a b q, parseLine l = Except.ok ⟨a, b, q⟩ →
          a = t.typ ∧ b = t.sha ∧ q = t.path := by
        intro a b q hq
        rw [hp] at hq
        injection hq with hq'
        rw [hq']
        exact ⟨rfl, rfl, rfl⟩
      have htne : t.typ ≠ "" := parseLine_ok_typ_ne hp
      have hself : entryAt (ls ++ [l]) t.path t.typ t.sha :=
        entryAt_snoc.mpr (Or.inr hp)
      split_ifs at h with h1 h2 h3 h4
      -- freebie: first object recorded for this path
      · injection h with h'
        injection h' with hm hv
        subst hm
        subst hv
        constructor
        · intro p a b hq hent
          by_cases hpp : p = t.path
          · subst hpp
            rw [updatePM_same] at hq
            exact htne hq
          · rw [updatePM_other _ _ _ hpp] at hq
            rcases entryAt_snoc.mp hent with hold | hnew
            · exact inv.unseen p a b hq hold
            · exact hpp (hparse a b p hnew).2.2
        · intro p hq
          by_cases hpp : p = t.path
          · subst hpp
            rw [updatePM_same]
            exact hself
          · rw [updatePM_other _ _ _ hpp] at hq ⊢
            exact entryAt_mono (inv.base_mem p hq)
        · intro p a b hvar hent
          by_cases hpp : p = t.path
          · subst hpp
            rw [updatePM_same]
            rcases entryAt_snoc.mp hent with hold | hnew
            · exact absurd hold (inv.unseen t.path a b h1)
            · obtain ⟨ha, hb, -⟩ := hparse a b t.path hnew
              exact ⟨ha, hb⟩
          · rw [updatePM_other _ _ _ hpp] at hvar ⊢
            rcases entryAt_snoc.mp hent with hold | hnew
            · exact inv.uniform p a b hvar hold
            · exact absurd (hparse a b p hnew).2.2 hpp
        · intro p hvar
          by_cases hpp : p = t.path
          · subst hpp
            rw [updatePM_same] at hvar
            cases hvar
          · rw [updatePM_other _ _ _ hpp] at hvar
            exact TwoDistinct_mono (inv.varies_two p hvar)
        · intro b hb
          obtain ⟨p, ⟨a, hent⟩, hvar⟩ := inv.mem_v b hb
          have hpp : p ≠ t.path := by
            intro hpp
            subst hpp
            obtain ⟨t1, s1, t2, s2, he1, -, -⟩ := inv.varies_two t.path hvar
            exact inv.unseen t.path t1 s1 h1 he1
          refine ⟨p, ⟨a, entryAt_mono hent⟩, ?_⟩
          rw [updatePM_other _ _ _ hpp]
          exact hvar
        · intro p a b hvar hent
          by_cases hpp : p = t.path
          · subst hpp
            rw [updatePM_same] at hvar
            cases hvar
          · rw [updatePM_other _ _ _ hpp] at hvar
            rcases entryAt_snoc.mp hent with hold | hnew
            · exact inv.v_complete p a b hvar hold
            · exact absurd (hparse a b p hnew).2.2 hpp
      -- path already varying: append the new sha unconditionally
      · injection h with h'
        injection h' with hm hv
        subst hm
        subst hv
        constructor
        · intro p a b hq hent
          have hpp : p ≠ t.path := fun hpp => h1 (hpp ▸ hq)
          rcases entryAt_snoc.mp hent with hold | hnew
          · exact inv.unseen p a b hq hold
          · exact hpp (hparse a b p hnew).2.2
        · intro p hq
          exact entryAt_mono (inv.base_mem p hq)
        · intro p a b hvar hent
          have hpp : p ≠ t.path := by
            intro hpp
            subst hpp
            rw [hvar] at h2
            cases h2
          rcases entryAt_snoc.mp hent with hold | hnew
          · exact inv.uniform p a b hvar hold
          · exact absurd (hparse a b p hnew).2.2 hpp
        · intro p hvar
          exact TwoDistinct_mono (inv.varies_two p hvar)
        · intro b hb
          rcases List.mem_append.mp hb with hb' | hb'
          · obtain ⟨p, ⟨a, hent⟩, hvar⟩ := inv.mem_v b hb'
            exact ⟨p, ⟨a, entryAt_mono hent⟩, hvar⟩
          · rcases List.mem_singleton.mp hb' with rfl
            exact ⟨t.path, ⟨t.typ, hself⟩, h2⟩
        · intro p a b hvar hent
          rcases entryAt_snoc.mp hent with hold | hnew
          · exact List.mem_append.mpr (Or.inl (inv.v_complete p a b hvar hold))
          · obtain ⟨-, hb, -⟩ := hparse a b p hnew
            subst hb
            exact List.mem_append.mpr (Or.inr (List.mem_singleton_self _))
      -- first divergence at this path: mark varying, record both shas
      -- (split_ifs has already discharged the submodule error branch)
      · injection h with h'
        injection h' with hm hv
        subst hm
        subst hv
        have h2' : (m t.path).varies = false := by
          cases hb : (m t.path).varies
          · rfl
          · exact absurd hb h2
        have hbase : entryAt ls t.path (m t.path).typ (m t.path).sha :=
          inv.base_mem t.path h1
        constructor
        · intro p a b hq hent
          by_cases hpp : p = t.path
          · subst hpp
            rw [updatePM_same] at hq
            exact h1 hq
          · rw [updatePM_other _ _ _ hpp] at hq
            rcases entryAt_snoc.mp hent with hold | hnew
            · exact inv.unseen p a b hq hold
            · exact hpp (hparse a b p hnew).2.2
        · intro p hq
          by_cases hpp : p = t.path
          · subst hpp
            rw [updatePM_same]
            exact entryAt_mono hbase
          · rw [updatePM_other _ _ _ hpp] at hq ⊢
            exact entryAt_mono (inv.base_mem p hq)
        · intro p a b hvar hent
          by_cases hpp : p = t.path
          · subst hpp
            rw [updatePM_same] at hvar
            cases hvar
          · rw [updatePM_other _ _ _ hpp] at hvar ⊢
            rcases entryAt_snoc.mp hent with hold | hnew
            · exact inv.uniform p a b hvar hold
            · exact absurd (hparse a b p hnew).2.2 hpp
        · intro p hvar
          by_cases hpp : p = t.path
          · subst hpp
            exact ⟨(m t.path).typ, (m t.path).sha, t.typ, t.sha,
              entryAt_mono hbase, hself, h3⟩
          · rw [updatePM_other _ _ _ hpp] at hvar
            exact TwoDistinct_mono (inv.varies_two p hvar)
        · intro b hb
          rcases List.mem_append.mp hb with hb' | hb'
          · obtain ⟨p, ⟨a, hent⟩, hvar⟩ := inv.mem_v b hb'
            refine ⟨p, ⟨a, entryAt_mono hent⟩, ?_⟩
            by_cases hpp : p = t.path
            · subst hpp
              rw [updatePM_same]
            · rw [updatePM_other _ _ _ hpp]
              exact hvar
          · refine ⟨t.path, ?_, by rw [updatePM_same]⟩
            rcases List.mem_cons.mp hb' with rfl | hb''
            · exact ⟨(m t.path).typ, entryAt_mono hbase⟩
            · rcases List.mem_singleton.mp hb'' with rfl
              exact ⟨t.typ, hself⟩
        · intro p a b hvar hent
          by_cases hpp : p = t.path
          · subst hpp
            rcases entryAt_snoc.mp hent with hold | hnew
            · obtain ⟨-, hb⟩ := inv.uniform t.path a b h2' hold
              subst hb
              exact List.mem_append.mpr (Or.inr (List.mem_cons_self _ _))
            · obtain ⟨-, hb, -⟩ := hparse a b t.path hnew
              subst hb
              exact List.mem_append.mpr
                (Or.inr (List.mem_cons_of_mem _ (List.mem_singleton_self _)))
          · rw [updatePM_other _ _ _ hpp] at hvar
            rcases entryAt_snoc.mp hent with hold | hnew
            · exact List.mem_append.mpr (Or.inl (inv.v_complete p a b hvar hold))
            · exact absurd (hparse a b p hnew).2.2 hpp
      -- same object as the baseline: no-op
      · injection h with h'
        injection h' with hm hv
        subst hm
        subst hv
        have heq : (m t.path).typ = t.typ ∧ (m t.path).sha = t.sha := by
          by_contra hc
          exact h3 (by tauto)
        constructor
        · intro p a b hq hent
          have hpp : p ≠ t.path := fun hpp => h1 (hpp ▸ hq)
          rcases entryAt_snoc.mp hent with hold | hnew
          · exact inv.unseen p a b hq hold
          · exact hpp (hparse a b p hnew).2.2
        · intro p hq
          exact entryAt_mono (inv.base_mem p hq)
        · intro p a b hvar hent
          rcases entryAt_snoc.mp hent with hold | hnew
          · exact inv.uniform p a b hvar hold
          · obtain ⟨ha, hb, hq⟩ := hparse a b p hnew
            subst hq
            exact ⟨ha.trans heq.1.symm, hb.trans heq.2.symm⟩
        · intro p hvar
          exact TwoDistinct_mono (inv.varies_two p hvar)
        · intro b hb
          obtain ⟨p, ⟨a, hent⟩, hvar⟩ := inv.mem_v b hb
          exact ⟨p, ⟨a, entryAt_mono hent⟩, hvar⟩
        · intro p a b hvar hent
          rcases entryAt_snoc.mp hent with hold | hnew
          · exact inv.v_complete p a b hvar hold
          · obtain ⟨-, -, hq⟩ := hparse a b p hnew
            subst hq
            rw [hvar] at h2
            exact absurd rfl h2

/-- The invariant carries through a whole run of `processLines`. -/
theorem processLines_inv (lines : List String) :
    ∀ {ls : List String} {m : PathMap} {v : List String} {m' : PathMap}
      {v' : List String}, Inv ls m v →
      processLines lines m v = Except.ok (m', v') → Inv (ls ++ lines) m' v' := by
  induction lines with
  | nil =>
    intro ls m v m' v' inv h
    rw [show processLines [] m v = Except.ok (m, v) from rfl] at h
    injection h with h'
    injection h' with hm hv
    subst hm
    subst hv
    simpa using inv
  | cons l rest ih =>
    intro ls m v m' v' inv h
    rw [show processLines (l :: rest) m v =
      (match processLine m v l with
       | Except.error e => Except.error e
       | Except.ok (m1, v1) => processLines rest m1 v1) from rfl] at h
    rcases hpl : processLine m v l with e | st
    · rw [hpl] at h
      cases h
    · obtain ⟨m1, v1⟩ := st
      rw [hpl] at h
      have inv1 := processLine_inv inv hpl
      have := ih inv1 h
      simpa [List.append_assoc] using this

/-- A successful run from the empty state satisfies the invariant for the
full line list. -/
theorem processLines_inv_run {lines : List String} {m' : PathMap}
    {v' : List String} (h : processLines lines emptyPM [] = Except.ok (m', v')) :
    Inv lines m' v' := by
  have := processLines_inv lines Inv_nil h
  simpa using this

/-- Closed form for membership in the `varying` accumulator: exactly the ids
seen at some path that carries two distinct `(kind, id)` pairs. -/
theorem Inv.mem_closed {lines : List String} {m : PathMap} {v : List String}
    (inv : Inv lines m v) (s : String) :
    s ∈ v ↔ ∃ p, shaAt lines p s ∧ TwoDistinct lines p := by
  constructor
  · intro hs
    obtain ⟨p, hsha, hvar⟩ := inv.mem_v s hs
    exact ⟨p, hsha, inv.varies_two p hvar⟩
  · rintro ⟨p, ⟨t, hent⟩, t1, s1, t2, s2, h1, h2, hne⟩
    have hvar : (m p).varies = true := by
      cases hb : (m p).varies
      · obtain ⟨e1t, e1s⟩ := inv.uniform p t1 s1 hb h1
        obtain ⟨e2t, e2s⟩ := inv.uniform p t2 s2 hb h2
        rcases hne with hne | hne
        · exact absurd (e1t.trans e2t.symm) hne
        · exact absurd (e1s.trans e2s.symm) hne
      · rfl
    exact inv.v_complete p t s hvar hent

theorem entryAt_perm {l1 l2 : List String} (hp : l1.Perm l2) :
    ∀ p t s, entryAt l1 p t s ↔ entryAt l2 p t s := by
  intro p t s
  unfold entryAt
  constructor
  · rintro ⟨l, hl, hok⟩
    exact ⟨l, hp.mem_iff.mp hl, hok⟩
  · rintro ⟨l, hl, hok⟩
    exact ⟨l, hp.mem_iff.mpr hl, hok⟩

/-- Core order-independence: two successful runs of `processLines` over
permuted line sequences accumulate the same set of ids. -/
theorem processLines_perm {l1 l2 : List String} {m1 m2 : PathMap}
    {v1 v2 : List String} (hperm : l1.Perm l2)
    (h1 : processLines l1 emptyPM [] = Except.ok (m1, v1))
    (h2 : processLines l2 emptyPM [] = Except.ok (m2, v2)) (s : String) :
    s ∈ v1 ↔ s ∈ v2 := by
  rw [(processLines_inv_run h1).mem_closed s,
    (processLines_inv_run h2).mem_closed s]
  unfold shaAt TwoDistinct
  simp only [entryAt_perm hperm]

/-- The step `processLine` can only fail on an empty-or-parseable line with the
submodule divergence message. -/
theorem processLine_error_valid {m : PathMap} {v : List String} {l : String}
    {e : String} (hval : l = "" ∨ ∃ t, parseLine l = Except.ok t)
    (h : processLine m v l = Except.error e) : e = subMsg := by
  rcases hval with hval | ⟨t, hval⟩
  · subst hval
    rw [show processLine m v "" = Except.ok (m, v) from rfl] at h
    cases h
  · have hl : l ≠ "" := parseLine_ok_ne_empty hval
    simp only [processLine, if_neg hl, hval] at h
    split_ifs at h
    injection h with h'
    exact h'.symm

/-- A failing run over empty-or-parseable lines fails with the submodule
divergence message. -/
theorem processLines_error_valid (lines : List String) :
    ∀ {m : PathMap} {v : List String} {e : String},
      (∀ l ∈ lines, l = "" ∨ ∃ t, parseLine l = Except.ok t) →
      processLines lines m v = Except.error e → e = subMsg := by
  induction lines with
  | nil =>
    intro m v e _ h
    rw [show processLines [] m v = Except.ok (m, v) from rfl] at h
    cases h
  | cons l rest ih =>
    intro m v e hval h
    rw [show processLines (l :: rest) m v =
      (match processLine m v l with
       | Except.error e => Except.error e
       | Except.ok (m1, v1) => processLines rest m1 v1) from rfl] at h
    rcases hpl : processLine m v l with e' | st
    · rw [hpl] at h
      injection h with h'
      subst h'
      exact processLine_error_valid (hval l (List.mem_cons_self l rest)) hpl
    · obtain ⟨m1, v1⟩ := st
      rw [hpl] at h
      exact ih (fun x hx => hval x (List.mem_cons_of_mem l hx)) h

/-- Running `processLines` over a concatenation runs the two halves in sequence. -/
theorem processLines_append (a b : List String) :
    ∀ (m : PathMap) (v : List String),
      processLines (a ++ b) m v =
        match processLines a m v with
        | Except.error e => Except.error e
        | Except.ok (m1, v1) => processLines b m1 v1 := by
  induction a with
  | nil =>
    intro m v
    rfl
  | cons l rest ih =>
    intro m v
    have hcons : ∀ (ls : List String) (m : PathMap) (v : List String),
        processLines (l :: ls) m v =
          match processLine m v l with
          | Except.error e => Except.error e
          | Except.ok (m1, v1) => processLines ls m1 v1 :=
      fun _ _ _ => rfl
    rw [show (l :: rest) ++ b = l :: (rest ++ b) from rfl, hcons, hcons]
    rcases hpl : processLine m v l with e | st
    · rfl
    · obtain ⟨m1, v1⟩ := st
      exact ih m1 v1

/-- The per-tree outer loop equals one run over the concatenated listings. -/
theorem varyingPathsAux_join (listings : List (List String)) :
    ∀ (m : PathMap) (v : List String),
      varyingPathsAux listings m v =
        match processLines listings.flatten m v with
        | Except.error e => Except.error e
        | Except.ok (_, v') => Except.ok v' := by
  induction listings with
  | nil =>
    intro m v
    rfl
  | cons ls rest ih =>
    intro m v
    rw [show (ls :: rest).flatten = ls ++ rest.flatten from rfl,
      processLines_append ls rest.flatten m v]
    show (match processLines ls m v with
      | Except.error e => Except.error e
      | Except.ok (m', v') => varyingPathsAux rest m' v') = _
    rcases hls : processLines ls m v with e | st
    · rfl
    · obtain ⟨m1, v1⟩ := st
      exact ih m1 v1

/-- The lines `varyingPaths` processes for a tree whose `ls-tree` query
succeeds. -/
def listingOf (o : GitOracle) (t : String) : List String :=
  match o.lsTree t with
  | Except.ok lines => lines
  | Except.error _ => []

/-- A successful oracle-level run coincides with the listings-level run over
the trees' listings. -/
theorem varyingPathsGoAux_ok (o : GitOracle) (trees : List String) :
    ∀ {m : PathMap} {v : List String} {r : List String},
      varyingPathsGoAux o trees m v = Except.ok r →
      varyingPathsAux (trees.map (listingOf o)) m v = Except.ok r := by
  induction trees with
  | nil =>
    intro m v r h
    exact h
  | cons t ts ih =>
    intro m v r h
    rw [show varyingPathsGoAux o (t :: ts) m v =
      (match o.lsTree t with
       | Except.error e => Except.error e
       | Except.ok lines =>
         match processLines lines m v with
         | Except.error e => Except.error e
         | Except.ok (m', v') => varyingPathsGoAux o ts m' v') from rfl] at h
    rcases hls : o.lsTree t with e | lines
    · rw [hls] at h
      cases h
    · rw [hls] at h
      replace h : (match processLines lines m v with
        | Except.error e => Except.error e
        | Except.ok (m', v') => varyingPathsGoAux o ts m' v') = Except.ok r := h
      rw [show (t :: ts).map (listingOf o) =
        listingOf o t :: ts.map (listingOf o) from rfl]
      show (match processLines (listingOf o t) m v with
        | Except.error e => Except.error e
        | Except.ok (m', v') => varyingPathsAux (ts.map (listingOf o)) m' v') =
        Except.ok r
      rw [show listingOf o t = lines from by rw [listingOf, hls]]
      rcases hpr : processLines lines m v with e | st
      · rw [hpr] at h
        exact h
      · obtain ⟨m1, v1⟩ := st
        rw [hpr] at h
        exact ih h

/-- A successful `varyingPaths` run, reduced to `processLines` over the
joined listings of its trees. -/
theorem varyingPaths_ok (o : GitOracle) (trees : List String)
    {r : List String} (h : varyingPaths o trees = Except.ok r) :
    ∃ m', processLines ((trees.map (listingOf o)).flatten) emptyPM [] =
      Except.ok (m', r) := by
  have h' := varyingPathsGoAux_ok o trees h
  rw [varyingPathsAux_join] at h'
  rcases hp : processLines ((trees.map (listingOf o)).flatten) emptyPM [] with e | st
  · rw [hp] at h'
    cases h'
  · obtain ⟨m1, v1⟩ := st
    rw [hp] at h'
    injection h' with h''
    exact ⟨m1, by rw [h'']⟩

/-- Flattening respects permutations of the outer list. -/
theorem perm_flatten {α : Type} {l1 l2 : List (List α)} (h : l1.Perm l2) :
    l1.flatten.Perm l2.flatten := by
  induction h with
  | nil => exact List.Perm.refl _
  | cons x _ ih => exact ih.append_left x
  | swap x y l =>
    show (y ++ (x ++ l.flatten)).Perm (x ++ (y ++ l.flatten))
    rw [← List.append_assoc, ← List.append_assoc]
    exact List.perm_append_comm.append_right _
  | trans _ _ ih1 ih2 => exact ih1.trans ih2

/-! ### Concrete fixtures for counterexamples and witnesses -/

def shaA : String := "aaaaaaaaaaaaaaaaaaaaaaaaaaaaaaaaaaaaaaaa"

def shaB : String := "bbbbbbbbbbbbbbbbbbbbbbbbbbbbbbbbbbbbbbbb"

def shaC : String := "cccccccccccccccccccccccccccccccccccccccc"

/-- Listing line: a blob at path `p` with id `shaA`. -/
def lineA : String := "blob " ++ shaA ++ " p"

/-- Listing line: a blob at path `p` with id `shaB`. -/
def lineB : String := "blob " ++ shaB ++ " p"

/-- Listing line: a submodule reference (`commit` entry) at path `p`. -/
def lineC : String := "commit " ++ shaC ++ " p"

/-- Three trees that place, at the same path `p`, two different blobs and a
submodule reference. -/
def oCex : GitOracle where
  mergeBases := fun _ => Except.ok []
  revList := fun _ _ => Except.ok []
  catFileBatch := fun _ => Except.ok []
  lsTree := fun t =>
    if t = "t1" then Except.ok [lineA]
    else if t = "t2" then Except.ok [lineB]
    else if t = "t3" then Except.ok [lineC]
    else Except.error "no such tree"
  packObjects := fun _ => Except.ok "PACK"

/-- Toolchain shape on which two commits of the range share one tree. -/
def oC3 : GitOracle where
  mergeBases := fun cs =>
    if cs = ["m", "t"] then Except.ok ["base"] else Except.ok []
  revList := fun tips base =>
    if tips = ["m", "t"] ∧ base = "base" then Except.ok ["c1"]
    else Except.ok []
  catFileBatch := fun _ => Except.ok ["t1", "t1"]
  lsTree := fun t =>
    if t = "t1" then Except.ok [lineA] else Except.error "no such tree"
  packObjects := fun _ => Except.ok "PACK"

/-! ### Claims -/

/-- C4: for every HTTP 200 response whose Merde-Server-API-Version header
differs from the client's expected response version, the stream `doRequest`
yields is exactly one error and zero messages — it fails before any multipart
part is consumed. -/
theorem C4_version_mismatch_single_error
    (decode : String → Except String Response) (resp : ServerResponse)
    (h200 : resp.statusCode = 200)
    (hv : resp.serverVersion ≠ apiResponseVersion) :
    doRequestModel decode resp =
      [Except.error (versionErrMsg resp.serverVersion)] := by
  unfold doRequestModel
  rw [if_neg (by rw [h200]; exact fun hc => hc rfl), if_pos hv]

def respC4 : ServerResponse :=
  ⟨200, "2", "multipart/mixed; boundary=x",
    [⟨"application/json", "\x7b\x7d"⟩], ""⟩

/-- Witness for C4 at a concrete response carrying version "2". -/
theorem C4_witness :
    doRequestModel (fun _ => Except.error "unused") respC4 =
      [Except.error (versionErrMsg "2")] :=
  C4_version_mismatch_single_error (fun _ => Except.error "unused") respC4
    rfl (by decide)

/-- C10: `doRequest` dispatches each multipart part by exact string equality
of its Content-Type header with "application/json" or
"application/octet-stream"; any other value — including one carrying a
parameter — ends the stream with a single fatal decode error and the part is
not decoded. -/
theorem C10_exact_content_type_dispatch
    (decode : String → Except String Response) (p : RespPart)
    (ps : List RespPart)
    (hj : p.contentType ≠ "application/json")
    (ho : p.contentType ≠ "application/octet-stream") :
    partsLoop decode (p :: ps) =
      [Except.error ("unexpected multipart content type: " ++ p.contentType)] := by
  rw [show partsLoop decode (p :: ps) =
    (if p.contentType = "application/json" then
      match decode p.body with
      | Except.error e => [Except.error e]
      | Except.ok r =>
        Except.ok { r with isJSON := true } :: partsLoop decode ps
    else if p.contentType = "application/octet-stream" then
      Except.ok (mkBinary p.body) :: partsLoop decode ps
    else
      [Except.error ("unexpected multipart content type: " ++ p.contentType)])
    from rfl, if_neg hj, if_neg ho]

def partUtf8 : RespPart := ⟨"application/json; charset=utf-8", "\x7b\x7d"⟩

/-- Witness for C10 at a JSON part whose header carries a charset
parameter. -/
theorem C10_witness :
    partsLoop (fun _ => Except.error "unused") [partUtf8] =
      [Except.error ("unexpected multipart content type: " ++
        partUtf8.contentType)] :=
  C10_exact_content_type_dispatch (fun _ => Except.error "unused") partUtf8 []
    (by decide) (by decide)

/-- C5: whenever the toolchain's merge-base query answers with an empty set
of bases, `UniqueAncestorMergeBase` returns the empty result (the `""`
sentinel) and no error, regardless of remaining fuel. -/
theorem C5_disjoint_histories_empty_not_error (o : GitOracle)
    (commits : List String) (fuel : Nat)
    (h : o.mergeBases commits = Except.ok []) :
    uniqueAncestorMergeBase o (fuel + 1) commits = some (Except.ok "") := by
  rw [show uniqueAncestorMergeBase o (fuel + 1) commits =
    (match o.mergeBases commits with
     | Except.error e => some (Except.error e)
     | Except.ok [] => some (Except.ok "")
     | Except.ok [b] => some (Except.ok b)
     | Except.ok bases => uniqueAncestorMergeBase o fuel bases) from rfl, h]

def oDisjoint : GitOracle where
  mergeBases := fun _ => Except.ok []
  revList := fun _ _ => Except.ok []
  catFileBatch := fun _ => Except.ok []
  lsTree := fun _ => Except.ok []
  packObjects := fun _ => Except.ok ""

/-- Witness for C5 on a toolchain reporting no merge bases. -/
theorem C5_witness :
    uniqueAncestorMergeBase oDisjoint 1 ["a", "b"] = some (Except.ok "") :=
  C5_disjoint_histories_empty_not_error oDisjoint ["a", "b"] 0 rfl

/-- A line whose entry first diverges from a not-yet-varying baseline with a
`commit` kind on either side makes `processLine` fail with the submodule
message. -/
theorem processLine_submodule {m : PathMap} {v : List String} {l : String}
    {t2 s2 p : String} (hl : parseLine l = Except.ok ⟨t2, s2, p⟩)
    (h1 : (m p).typ ≠ "") (h2 : (m p).varies = false)
    (h3 : (m p).typ ≠ t2 ∨ (m p).sha ≠ s2)
    (h4 : (m p).typ = "commit" ∨ t2 = "commit") :
    processLine m v l = Except.error subMsg := by
  have hlne : l ≠ "" := parseLine_ok_ne_empty hl
  simp only [processLine, if_neg hlne, hl]
  rw [if_neg h1, if_neg (by rw [h2]; exact Bool.false_ne_true), if_pos h3,
    if_pos h4]

/-- C1 counterexample: the trees of `oCex` resolve path `p` to the blob
`shaA` in the first tree and to a submodule reference in the third, yet
`varyingPaths` succeeds with a result set — the submodule entry arrives
after the path is already marked varying, so the check is skipped. -/
theorem C1_counterexample :
    parseLine lineA = Except.ok ⟨"blob", shaA, "p"⟩ ∧
    parseLine lineC = Except.ok ⟨"commit", shaC, "p"⟩ ∧
    varyingPaths oCex ["t1", "t2", "t3"] = Except.ok [shaA, shaB, shaC] :=
  ⟨by decide, by decide, by decide⟩

/-- C1 (amended): `varyingPaths` fails with the distinguishable submodule
error exactly when the first divergence observed at some path — the first
entry whose `(kind, id)` differs from that path's recorded baseline, the
path not yet being marked varying — involves a `commit` kind on either side;
nothing is returned then. (A submodule entry reaching a path already marked
varying is appended without the check, as the counterexample shows.) -/
theorem C1_amended_submodule_first_divergence
    (listings : List (List String)) (pre post : List String) (line : String)
    (t1 s1 t2 s2 p : String)
    (hsplit : listings.flatten = pre ++ line :: post)
    (hpre : ∀ l ∈ pre, l = "" ∨ ∃ e, parseLine l = Except.ok e)
    (hline : parseLine line = Except.ok ⟨t2, s2, p⟩)
    (hbase : entryAt pre p t1 s1)
    (huni : ∀ a b, entryAt pre p a b → a = t1 ∧ b = s1)
    (hne : t1 ≠ t2 ∨ s1 ≠ s2)
    (hcommit : t1 = "commit" ∨ t2 = "commit") :
    varyingPathsListings listings = Except.error subMsg := by
  unfold varyingPathsListings
  rw [varyingPathsAux_join, hsplit, processLines_append]
  rcases hp : processLines pre emptyPM [] with e | st
  · have he : e = subMsg := processLines_error_valid pre hpre hp
    subst he
    rfl
  · obtain ⟨m1, v1⟩ := st
    have inv : Inv pre m1 v1 := processLines_inv_run hp
    have ht1ne : t1 ≠ "" := by
      obtain ⟨l0, hl0, hok0⟩ := hbase
      exact parseLine_ok_typ_ne hok0
    have hmne : (m1 p).typ ≠ "" := fun h0 => inv.unseen p t1 s1 h0 hbase
    have htyp := huni (m1 p).typ (m1 p).sha (inv.base_mem p hmne)
    have hvar : (m1 p).varies = false := by
      cases hb : (m1 p).varies
      · rfl
      · obtain ⟨a1, b1, a2, b2, he1, he2, hnee⟩ := inv.varies_two p hb
        obtain ⟨e1, e2⟩ := huni a1 b1 he1
        obtain ⟨e3, e4⟩ := huni a2 b2 he2
        rcases hnee with hnee | hnee
        · exact absurd (e1.trans e3.symm) hnee
        · exact absurd (e2.trans e4.symm) hnee
    have hstep : processLine m1 v1 line = Except.error subMsg := by
      refine processLine_submodule hline hmne hvar ?_ ?_
      · rcases hne with hne' | hne'
        · exact Or.inl (by rw [htyp.1]; exact hne')
        · exact Or.inr (by rw [htyp.2]; exact hne')
      · rcases hcommit with hc' | hc'
        · exact Or.inl (by rw [htyp.1]; exact hc')
        · exact Or.inr hc'
    show (match processLines (line :: post) m1 v1 with
      | Except.error e => Except.error e
      | Except.ok (_, v') => Except.ok v') = Except.error subMsg
    rw [show processLines (line :: post) m1 v1 =
      (match processLine m1 v1 line with
       | Except.error e => Except.error e
       | Except.ok (m', v') => processLines post m' v') from rfl, hstep]

/-- Witness for the amended C1: one tree holds a blob at `p`, the next a
submodule reference at `p`; the run fails with the submodule error. -/
theorem C1_witness :
    varyingPathsListings [[lineA], [lineC]] = Except.error subMsg :=
  C1_amended_submodule_first_divergence [[lineA], [lineC]] [lineA] [] lineC
    "blob" shaA "commit" shaC "p"
    (by decide)
    (by
      intro l hl
      rw [List.mem_singleton] at hl
      subst hl
      exact Or.inr ⟨⟨"blob", shaA, "p"⟩, by decide⟩)
    (by decide)
    ⟨lineA, List.mem_singleton_self lineA, by decide⟩
    (by
      rintro a b ⟨l, hl, hok⟩
      rw [List.mem_singleton] at hl
      subst hl
      have h0 : parseLine lineA = Except.ok ⟨"blob", shaA, "p"⟩ := by decide
      rw [h0] at hok
      injection hok with h1
      exact ⟨(congrArg TreeLine.typ h1).symm, (congrArg TreeLine.sha h1).symm⟩)
    (Or.inl (by decide))
    (Or.inr rfl)

/-- C2 counterexample: over the trees of `oCex`, the order
`t1, t2, t3` succeeds while its permutation `t1, t3, t2` fails with the
submodule error — reordering changes whether the call succeeds. -/
theorem C2_counterexample :
    (["t1", "t2", "t3"] : List String).Perm ["t1", "t3", "t2"] ∧
    varyingPaths oCex ["t1", "t2", "t3"] = Except.ok [shaA, shaB, shaC] ∧
    varyingPaths oCex ["t1", "t3", "t2"] = Except.error subMsg :=
  ⟨by decide, by decide, by decide⟩

/-- C2 (amended): whenever two permutations of the tree sequence both
succeed, the results agree as sets — order affects only the incidental
append order (and, when submodule entries are involved, whether the call
succeeds at all, as the counterexample shows). -/
theorem C2_amended_order_invariant_on_success (o : GitOracle)
    (trees1 trees2 : List String) (hperm : trees1.Perm trees2)
    {v1 v2 : List String}
    (h1 : varyingPaths o trees1 = Except.ok v1)
    (h2 : varyingPaths o trees2 = Except.ok v2) (s : String) :
    s ∈ v1 ↔ s ∈ v2 := by
  obtain ⟨m1, hp1⟩ := varyingPaths_ok o trees1 h1
  obtain ⟨m2, hp2⟩ := varyingPaths_ok o trees2 h2
  exact processLines_perm (perm_flatten (hperm.map (listingOf o))) hp1 hp2 s

/-- Witness for the amended C2 on two succeeding orders of two trees. -/
theorem C2_witness : shaA ∈ [shaA, shaB] ↔ shaA ∈ [shaB, shaA] :=
  C2_amended_order_invariant_on_success oCex ["t1", "t2"] ["t2", "t1"]
    (by decide) (by decide) (by decide) shaA

/-- C3 counterexample: with two commits of the range sharing one tree, the
`need` list `MergePack` builds contains `t1` twice — it is not
deduplicated. -/
theorem C3_counterexample :
    mergePackNeed oC3 1 "m" "t" =
      some (Except.ok ["c1", "base", "t1", "t1"]) ∧
    ¬ (["c1", "base", "t1", "t1"] : List String).Nodup :=
  ⟨by decide, by decide⟩

/-- C3 (amended): the `need` list `MergePack` hands to the Pack Assembler is
the plain concatenation of the commit list, the tree list and the
varying-object list, with no deduplication — the same id may occur more than
once (the counterexample repeats a tree id). -/
theorem C3_amended_need_is_concatenation (o : GitOracle) (fuel : Nat)
    (main topic base : String) (commits trees varying : List String)
    (hu : uniqueAncestorMergeBase o fuel [main, topic] = some (Except.ok base))
    (hc : commitsBetween o base [main, topic] = Except.ok commits)
    (ht : treesReferenced o commits = Except.ok trees)
    (hv : varyingPaths o trees = Except.ok varying) :
    mergePackNeed o fuel main topic =
      some (Except.ok (commits ++ trees ++ varying)) := by
  simp only [mergePackNeed, hu, hc, ht, hv]

/-- Witness for the amended C3 at the shared-tree toolchain shape. -/
theorem C3_witness :
    mergePackNeed oC3 1 "m" "t" =
      some (Except.ok (["c1", "base"] ++ ["t1", "t1"] ++ [])) :=
  C3_amended_need_is_concatenation oC3 1 "m" "t" "base" ["c1", "base"]
    ["t1", "t1"] [] (by decide) (by decide) (by decide) (by decide)

/-- Enough fuel, measured by any rank that drops at every multi-base
iteration, makes the merge-base loop finish. -/
theorem uniqueAncestor_fuel_sufficient (o : GitOracle)
    (rank : List String → Nat)
    (hdec : ∀ cs bs, o.mergeBases cs = Except.ok bs → 2 ≤ bs.length →
      rank bs < rank cs) :
    ∀ (fuel : Nat) (commits : List String), rank commits < fuel →
      ∃ r, uniqueAncestorMergeBase o fuel commits = some r := by
  intro fuel
  induction fuel with
  | zero =>
    intro commits h
    exact absurd h (Nat.not_lt_zero _)
  | succ f ih =>
    intro commits h
    rw [show uniqueAncestorMergeBase o (f + 1) commits =
      (match o.mergeBases commits with
       | Except.error e => some (Except.error e)
       | Except.ok [] => some (Except.ok "")
       | Except.ok [b] => some (Except.ok b)
       | Except.ok bases => uniqueAncestorMergeBase o f bases) from rfl]
    rcases hb : o.mergeBases commits with e | bases
    · exact ⟨Except.error e, rfl⟩
    · rcases bases with _ | ⟨b1, bs⟩
      · exact ⟨Except.ok "", rfl⟩
      · rcases bs with _ | ⟨b2, rest⟩
        · exact ⟨Except.ok b1, rfl⟩
        · have hlen : 2 ≤ (b1 :: b2 :: rest).length := by
            simp only [List.length_cons]
            omega
          have hlt : rank (b1 :: b2 :: rest) < f :=
            Nat.lt_of_lt_of_le (hdec commits _ hb hlen) (Nat.lt_succ_iff.mp h)
          exact ih (b1 :: b2 :: rest) hlt

/-- C6: whenever every merge-base iteration draws its candidates from
strictly earlier history (any rank strictly decreasing across multi-base
iterations witnesses this), `UniqueAncestorMergeBase` finishes within
`rank + 1` iterations with a single id, the empty result, or a propagated
error — it never loops forever. -/
theorem C6_unique_ancestor_terminates (o : GitOracle)
    (rank : List String → Nat)
    (hdec : ∀ cs bs, o.mergeBases cs = Except.ok bs → 2 ≤ bs.length →
      rank bs < rank cs) (commits : List String) :
    ∃ r, uniqueAncestorMergeBase o (rank commits + 1) commits = some r :=
  uniqueAncestor_fuel_sufficient o rank hdec (rank commits + 1) commits
    (Nat.lt_succ_self _)

/-- A criss-cross toolchain shape: two rounds of merge bases, then one. -/
def oCC : GitOracle where
  mergeBases := fun cs =>
    if cs = ["a", "b"] then Except.ok ["c", "d"]
    else if cs = ["c", "d"] then Except.ok ["e"]
    else Except.ok []
  revList := fun _ _ => Except.ok []
  catFileBatch := fun _ => Except.ok []
  lsTree := fun _ => Except.ok []
  packObjects := fun _ => Except.ok ""

/-- Rank witnessing that `oCC`'s iterations descend. -/
def rankCC : List String → Nat := fun cs =>
  if cs = ["a", "b"] then 2 else if cs = ["c", "d"] then 1 else 0

/-- Witness for C6 on the criss-cross shape. -/
theorem C6_witness :
    ∃ r, uniqueAncestorMergeBase oCC (rankCC ["a", "b"] + 1) ["a", "b"] =
      some r :=
  C6_unique_ancestor_terminates oCC rankCC
    (by
      intro cs bs hb hlen
      by_cases hc1 : cs = ["a", "b"]
      · subst hc1
        rw [show oCC.mergeBases ["a", "b"] = Except.ok ["c", "d"] from rfl]
          at hb
        injection hb with hb'
        subst hb'
        decide
      · by_cases hc2 : cs = ["c", "d"]
        · subst hc2
          rw [show oCC.mergeBases ["c", "d"] = Except.ok ["e"] from rfl] at hb
          injection hb with hb'
          subst hb'
          exact absurd hlen (by decide)
        · have hbd : oCC.mergeBases cs = Except.ok [] := by
            rw [show oCC.mergeBases cs =
              (if cs = ["a", "b"] then Except.ok ["c", "d"]
               else if cs = ["c", "d"] then Except.ok ["e"]
               else Except.ok []) from rfl, if_neg hc1, if_neg hc2]
          rw [hbd] at hb
          injection hb with hb'
          subst hb'
          exact absurd hlen (by decide))
    ["a", "b"]

/-- C7: `commitsBetween` returns exactly the commits reachable from some tip
but not from the base, plus the base itself, and nothing else (the rev-list
query is modelled from its specified meaning, the toolchain being external
to this repository). -/
theorem C7_commitsBetween_exactly (g : RepoGraph) (base : String)
    (tips : List String) (c : String) (_htips : tips ≠ []) :
    commitsBetweenModel g base tips =
      Except.ok (revListModel g tips base ++ [base]) ∧
    (c ∈ revListModel g tips base ++ [base] ↔
      ((c ∈ g.nodes ∧ (∃ t ∈ tips, reachb g t c = true) ∧
        reachb g base c = false) ∨ c = base)) := by
  refine ⟨rfl, ?_⟩
  rw [List.mem_append, List.mem_singleton]
  unfold revListModel
  rw [List.mem_filter]
  simp only [List.any_eq_true, Bool.and_eq_true, Bool.not_eq_true']

/-- A three-commit graph: tips `a` and `b`, shared parent `m`. -/
def gW : RepoGraph where
  nodes := ["a", "b", "m"]
  parentsOf := fun n =>
    if n = "a" then ["m"] else if n = "b" then ["m"] else []

/-- Witness for C7 on the three-commit graph, at the candidate `a`. -/
theorem C7_witness :
    commitsBetweenModel gW "m" ["a", "b"] =
      Except.ok (revListModel gW ["a", "b"] "m" ++ ["m"]) ∧
    ("a" ∈ revListModel gW ["a", "b"] "m" ++ ["m"] ↔
      (("a" ∈ gW.nodes ∧ (∃ t ∈ (["a", "b"] : List String),
        reachb gW t "a" = true) ∧ reachb gW "m" "a" = false) ∨
        "a" = "m")) :=
  C7_commitsBetween_exactly gW "m" ["a", "b"] "a" (by decide)

/-- Modelled from the toolchain's documented interface (external to this
repository): `git cat-file --batch-check` answers each query line on stdout
and exits 0 even when a name cannot be resolved, reporting it as
`<name> missing`; `store` maps a commit to its tree when resolvable. The
query names are the `<commit>^\x7btree\x7d` forms `treesReferenced`
submits. -/
def catFileBatchCheckLines (store : String → Option String)
    (commits : List String) : List String :=
  commits.map (fun c =>
    match store c with
    | some tree => tree
    | none => c ++ "^\x7btree\x7d missing")

/-- A store on which commit `c1` cannot be resolved while `base` can. -/
def storeC8 : String → Option String := fun c =>
  if c = "base" then some "t1" else none

/-- Toolchain shape for the C8 counterexample: the batched query answers
with a zero exit (one `missing` line for the unresolvable commit), and
`ls-tree` fails on the junk id downstream. -/
def oC8miss : GitOracle where
  mergeBases := fun cs =>
    if cs = ["m", "t"] then Except.ok ["base"] else Except.ok []
  revList := fun _ _ => Except.ok ["c1"]
  catFileBatch := fun s =>
    if s = batchInput ["c1", "base"] then
      Except.ok (catFileBatchCheckLines storeC8 ["c1", "base"])
    else Except.error "unexpected query"
  lsTree := fun t =>
    if t = "t1" then Except.ok [lineA]
    else Except.error "fatal: not a tree object"
  packObjects := fun _ => Except.ok "PACK"

/-- C8 counterexample: commit `c1` is unresolvable, so the batched query
succeeds with a `missing` line; `treesReferenced` returns that junk line
inside the tree list with no error, contradicting the claimed fatal error
with no partial results — the pipeline fails only downstream, when the junk
id reaches `ls-tree`, and with a different error. -/
theorem C8_counterexample :
    storeC8 "c1" = none ∧
    treesReferenced oC8miss ["c1", "base"] =
      Except.ok ["c1^\x7btree\x7d missing", "t1"] ∧
    mergePackNeed oC8miss 1 "m" "t" =
      some (Except.error "fatal: not a tree object") :=
  ⟨by decide, by decide, by decide⟩

/-- C8 (amended): `treesReferenced` performs no validation of the batched
query's output. The whole operation fails, with the toolchain's error and no
tree list, exactly when the single batched invocation itself fails; on a
zero-exit invocation every output line is returned verbatim as a tree id and
flows unchecked into `varyingPaths` — so an unresolved commit, reported by
the toolchain as a `missing` line with a zero exit, produces a junk tree
entry and no error at this stage. -/
theorem C8_amended_no_validation (o : GitOracle) (fuel : Nat)
    (main topic base : String) (commits ls : List String)
    (hu : uniqueAncestorMergeBase o fuel [main, topic] = some (Except.ok base))
    (hc : commitsBetween o base [main, topic] = Except.ok commits) :
    (∀ e, o.catFileBatch (batchInput commits) = Except.error e →
      mergePackNeed o fuel main topic = some (Except.error e)) ∧
    (o.catFileBatch (batchInput commits) = Except.ok ls →
      treesReferenced o commits = Except.ok ls ∧
      mergePackNeed o fuel main topic =
        (match varyingPaths o ls with
         | Except.error e => some (Except.error e)
         | Except.ok varying =>
           some (Except.ok (commits ++ ls ++ varying)))) := by
  constructor
  · intro e he
    have ht : treesReferenced o commits = Except.error e := he
    simp only [mergePackNeed, hu, hc, ht]
  · intro hb
    have ht : treesReferenced o commits = Except.ok ls := hb
    refine ⟨ht, ?_⟩
    simp only [mergePackNeed, hu, hc, ht]

/-- Witness for the amended C8 at the unresolvable-commit store: the junk
line is returned as a tree id and handed on to `varyingPaths`. -/
theorem C8_witness :
    treesReferenced oC8miss ["c1", "base"] =
      Except.ok ["c1^\x7btree\x7d missing", "t1"] ∧
    mergePackNeed oC8miss 1 "m" "t" =
      (match varyingPaths oC8miss ["c1^\x7btree\x7d missing", "t1"] with
       | Except.error e => some (Except.error e)
       | Except.ok varying =>
         some (Except.ok
           (["c1", "base"] ++ ["c1^\x7btree\x7d missing", "t1"] ++ varying))) :=
  (C8_amended_no_validation oC8miss 1 "m" "t" "base" ["c1", "base"]
    ["c1^\x7btree\x7d missing", "t1"] (by decide) (by decide)).2 (by decide)

/-- C9: `packObjects` fails whenever the toolchain invocation fails (its
error is propagated, never swallowed), and the object list `MergePack`
requests is never empty — it always contains at least the base commit — so
an empty pack is never silently produced when objects were required. -/
theorem C9_pack_failure_fatal_and_need_nonempty (o : GitOracle) (fuel : Nat)
    (main topic : String) (objs : List String) (e : String)
    (need : List String) :
    (o.packObjects (packInput objs) = Except.error e →
      packObjects o objs = Except.error e) ∧
    (mergePackNeed o fuel main topic = some (Except.ok need) → need ≠ []) := by
  constructor
  · intro h
    exact h
  · intro h
    unfold mergePackNeed at h
    rcases hu : uniqueAncestorMergeBase o fuel [main, topic] with _ | r
    · rw [hu] at h
      cases h
    · rw [hu] at h
      rcases r with e' | base
      · injection h with h'
        cases h'
      · replace h : (match commitsBetween o base [main, topic] with
          | Except.error e => some (Except.error e)
          | Except.ok commits =>
            match treesReferenced o commits with
            | Except.error e => some (Except.error e)
            | Except.ok trees =>
              match varyingPaths o trees with
              | Except.error e => some (Except.error e)
              | Except.ok varying =>
                some (Except.ok (commits ++ trees ++ varying))) =
          some (Except.ok need) := h
        rcases hc : commitsBetween o base [main, topic] with e' | commits
        · rw [hc] at h
          injection h with h'
          cases h'
        · rw [hc] at h
          replace h : (match treesReferenced o commits with
              | Except.error e => some (Except.error e)
              | Except.ok trees =>
                match varyingPaths o trees with
                | Except.error e => some (Except.error e)
                | Except.ok varying =>
                  some (Except.ok (commits ++ trees ++ varying))) =
            some (Except.ok need) := h
          rcases ht : treesReferenced o commits with e' | trees
          · rw [ht] at h
            injection h with h'
            cases h'
          · rw [ht] at h
            replace h : (match varyingPaths o trees with
                | Except.error e => some (Except.error e)
                | Except.ok varying =>
                  some (Except.ok (commits ++ trees ++ varying))) =
              some (Except.ok need) := h
            rcases hv : varyingPaths o trees with e' | varying
            · rw [hv] at h
              injection h with h'
              cases h'
            · rw [hv] at h
              injection h with h'
              injection h' with h''
              have hcn : commits ≠ [] := by
                unfold commitsBetween at hc
                rcases hr : o.revList [main, topic] base with e'' | cl
                · rw [hr] at hc
                  cases hc
                · rw [hr] at hc
                  injection hc with hc'
                  intro hnil
                  rw [← hc'] at hnil
                  simp at hnil
              intro hnil
              rw [← h''] at hnil
              simp only [List.append_eq_nil] at hnil
              exact hcn hnil.1.1

/-- Toolchain shape whose pack-objects invocation fails. -/
def oPackErr : GitOracle where
  mergeBases := fun _ => Except.ok []
  revList := fun _ _ => Except.ok []
  catFileBatch := fun _ => Except.ok []
  lsTree := fun _ => Except.ok []
  packObjects := fun _ => Except.error "pack-objects failed"

/-- Witness for C9: a failing pack invocation propagates, and a concrete
pipeline's need list is non-empty. -/
theorem C9_witness :
    packObjects oPackErr [shaA] = Except.error "pack-objects failed" ∧
    (["c1", "base", "t1", "t1"] : List String) ≠ [] :=
  ⟨(C9_pack_failure_fatal_and_need_nonempty oPackErr 1 "m" "t" [shaA]
      "pack-objects failed" []).1 rfl,
   (C9_pack_failure_fatal_and_need_nonempty oC3 1 "m" "t" [] ""
      ["c1", "base", "t1", "t1"]).2 (by decide)⟩

end Merde
